import Mathlib

/-!
Verification of the numerical core of the diffusion-tools module:
noise-schedule generation (`compute_beta_alpha`, `compute_beta_alpha2`),
image range conversion (`convert_image`), and the positional/step
encoder (`PositionEncoder`) with its `gather_nd` lookup.

Arrays are modelled over exact reals; fallible numpy / Python operations
(division by zero, a zero `arange` step, out-of-range gathers) are
modelled with `Option`.
-/

namespace DiffusionTools

/-- Model of `np.arange(start, stop, step)` over the reals: the sequence
`start, start + step, start + 2 * step, ...` of length
`ceil((stop - start) / step)` (empty when that quantity is nonpositive).
numpy raises `ZeroDivisionError` on a zero step, modelled as `none`. -/
noncomputable def np_arange (start stop step : ℝ) : Option (List ℝ) :=
  if step = 0 then none
  else some ((List.range (Int.toNat ⌈(stop - start) / step⌉)).map
    fun t : ℕ => start + (t : ℝ) * step)

/-- Model of `np.cumprod(xs)`: element `t` is the product of `xs[0..t]`. -/
noncomputable def cumprod (xs : List ℝ) : List ℝ :=
  (List.range xs.length).map fun t => (xs.take (t + 1)).prod

/-- `compute_beta_alpha(nsteps, beta_start, beta_end, gamma_start, gamma_end)`
from `diffusion_tools.py` (linear schedule):
`beta = np.arange(beta_start, beta_end, (beta_end-beta_start)/nsteps)`,
`sigma = np.arange(gamma_start, gamma_end, (gamma_end-gamma_start)/nsteps)`,
`alpha = np.cumprod(1-beta)`, returning `(beta, alpha, sigma)`.
When `nsteps = 0` the Python float division `(beta_end-beta_start)/nsteps`
raises `ZeroDivisionError`, modelled as `none`. -/
noncomputable def compute_beta_alpha (nsteps : ℕ)
    (beta_start beta_end gamma_start gamma_end : ℝ) :
    Option (List ℝ × List ℝ × List ℝ) :=
  if nsteps = 0 then none
  else do
    let beta ← np_arange beta_start beta_end ((beta_end - beta_start) / nsteps)
    let sigma ← np_arange gamma_start gamma_end ((gamma_end - gamma_start) / nsteps)
    let alpha := cumprod (beta.map fun b => 1 - b)
    return (beta, alpha, sigma)

/-- `compute_beta_alpha2(nsteps, beta_start, beta_end, gamma_start, gamma_end)`
from `diffusion_tools.py` (sine schedule):
`t = (pi/2) * np.arange(0, 1, 1/nsteps)`,
`beta = np.sin(t) * (beta_end-beta_start) + beta_start`,
`sigma` and `alpha` as in the linear schedule. -/
noncomputable def compute_beta_alpha2 (nsteps : ℕ)
    (beta_start beta_end gamma_start gamma_end : ℝ) :
    Option (List ℝ × List ℝ × List ℝ) :=
  if nsteps = 0 then none
  else do
    let u ← np_arange 0 1 (1 / nsteps)
    let t := u.map fun x => Real.pi / 2 * x
    let beta := t.map fun x => Real.sin x * (beta_end - beta_start) + beta_start
    let sigma ← np_arange gamma_start gamma_end ((gamma_end - gamma_start) / nsteps)
    let alpha := cumprod (beta.map fun b => 1 - b)
    return (beta, alpha, sigma)

/-- Nested-array model of a tensor value: a scalar leaf or an array of
sub-tensors. Used for the range converter and for `gather_nd` results,
whose rank depends on the index shape. -/
inductive Tensor (α : Type) where
  | scal : α → Tensor α
  | arr : List (Tensor α) → Tensor α

/-- Elementwise map over a tensor, preserving its structure. -/
def Tensor.map {α β : Type} (f : α → β) : Tensor α → Tensor β
  | .scal x => .scal (f x)
  | .arr ts => .arr (ts.attach.map fun t => Tensor.map f t.1)
  decreasing_by
    simp only [Tensor.arr.sizeOf_spec]
    have := List.sizeOf_lt_of_mem t.2
    omega

/-- Shape skeleton of a tensor (all leaf values erased). -/
def Tensor.shape {α : Type} : Tensor α → Tensor Unit
  | .scal _ => .scal ()
  | .arr ts => .arr (ts.attach.map fun t => Tensor.shape t.1)
  decreasing_by
    simp only [Tensor.arr.sizeOf_spec]
    have := List.sizeOf_lt_of_mem t.2
    omega

/-- Leaf values of a tensor, in order. -/
def Tensor.leaves {α : Type} : Tensor α → List α
  | .scal x => [x]
  | .arr ts => (ts.attach.map fun t => Tensor.leaves t.1).flatten
  decreasing_by
    simp only [Tensor.arr.sizeOf_spec]
    have := List.sizeOf_lt_of_mem t.2
    omega

/-- `convert_image(I)` from `diffusion_tools.py`:
`I = I/2.0 + 0.5; I = np.maximum(I, 0.0); I = np.minimum(I, 1.0)`. -/
noncomputable def convert_image (I : Tensor ℝ) : Tensor ℝ :=
  let I1 := I.map fun x => x / 2 + 0.5
  let I2 := I1.map fun x => max x 0
  let I3 := I2.map fun x => min x 1
  I3

/-- The state of a constructed `PositionEncoder` layer: the recorded
`max_steps` and (possibly adjusted) `max_dims`, and the embedding table. -/
structure PositionEncoder where
  max_steps : ℕ
  max_dims : ℕ
  positional_embedding : List (List ℝ)

/-- `PositionEncoder.__init__(max_steps, max_dims)` from
`diffusion_tools.py`: if `max_dims` is odd it is incremented by one; the
table has `max_steps` rows of width `max_dims`, with
`pos_emb[t, 2i] = sin(t / 10000**(2i/max_dims))` and
`pos_emb[t, 2i+1] = cos(t / 10000**(2i/max_dims))` (here `c / 2` recovers
the meshgrid row index `i` from the column number `c`). -/
noncomputable def PositionEncoder.init (max_steps max_dims : ℕ) : PositionEncoder :=
  let D := if max_dims % 2 = 1 then max_dims + 1 else max_dims
  { max_steps := max_steps
    max_dims := D
    positional_embedding :=
      (List.range max_steps).map fun p : ℕ =>
        (List.range D).map fun c =>
          if c % 2 = 0 then
            Real.sin ((p : ℝ) / (10000 : ℝ) ^ ((2 * (c / 2) : ℕ) / (D : ℝ)))
          else
            Real.cos ((p : ℝ) / (10000 : ℝ) ^ ((2 * (c / 2) : ℕ) / (D : ℝ))) }

/-- Model of `tf.gather_nd(params, indices)` for a rank-2 `params` and a
rank-1 `indices` tensor: the whole of `indices` is one multi-dimensional
index into `params`, so one index selects a row, two indices select a
scalar, and more than two exceed the rank. Out-of-range indices signal
an error (`none`). -/
def gather_nd (params : List (List ℝ)) (indices : List ℕ) : Option (Tensor ℝ) :=
  match indices with
  | [] => some (Tensor.arr (params.map fun row => Tensor.arr (row.map Tensor.scal)))
  | [i] => (params[i]?).map fun row => Tensor.arr (row.map Tensor.scal)
  | [i, j] => (params[i]?).bind fun row => (row[j]?).map Tensor.scal
  | _ => none

/-- Model of `tf.gather_nd(params, indices)` for a rank-2 `params` and a
rank-2 `indices` tensor: each inner index vector is gathered
independently and the results are stacked. -/
def gather_nd2 (params : List (List ℝ)) (indices : List (List ℕ)) : Option (Tensor ℝ) :=
  (indices.mapM fun iv => gather_nd params iv).map Tensor.arr

/-- `PositionEncoder.call(indices)` from `diffusion_tools.py`:
`tf.gather_nd(self.positional_embedding, indices)`, here at a rank-1
index tensor. -/
def PositionEncoder.call (self : PositionEncoder) (indices : List ℕ) :
    Option (Tensor ℝ) :=
  gather_nd self.positional_embedding indices

/-- `PositionEncoder.call(indices)` at a rank-2 index tensor. -/
def PositionEncoder.call₂ (self : PositionEncoder) (indices : List (List ℕ)) :
    Option (Tensor ℝ) :=
  gather_nd2 self.positional_embedding indices

/-- `PositionEncoder.embedding()` from `diffusion_tools.py`. -/
def PositionEncoder.embedding (self : PositionEncoder) : List (List ℝ) :=
  self.positional_embedding

/-! Basic facts about the embedded operations. -/

theorem np_arange_pos_step (start stop : ℝ) (n : ℕ) (hn : 0 < n) (h : start ≠ stop) :
    np_arange start stop ((stop - start) / n) =
      some ((List.range n).map fun t : ℕ => start + (t : ℝ) * ((stop - start) / n)) := by
  have hs : stop - start ≠ 0 := sub_ne_zero.mpr (Ne.symm h)
  have hn0 : (n : ℝ) ≠ 0 := Nat.cast_ne_zero.mpr hn.ne'
  have hstep : (stop - start) / n ≠ 0 := div_ne_zero hs hn0
  have hq : (stop - start) / ((stop - start) / n) = (n : ℝ) := by
    field_simp
  simp only [np_arange, if_neg hstep, hq, Int.ceil_natCast, Int.toNat_natCast]

theorem cumprod_length (xs : List ℝ) : (cumprod xs).length = xs.length := by
  simp [cumprod]

theorem cumprod_getElem? (xs : List ℝ) (t : ℕ) (h : t < xs.length) :
    (cumprod xs)[t]? = some ((xs.take (t + 1)).prod) := by
  simp [cumprod, List.getElem?_map, List.getElem?_range, h]

theorem range_map_prod (f : ℕ → ℝ) (m : ℕ) :
    ((List.range m).map f).prod = ∏ k ∈ Finset.range m, f k := by
  induction m with
  | zero => simp
  | succ m ih => simp [List.range_succ, Finset.prod_range_succ, ih]

theorem take_prod_pos (xs : List ℝ) (h : ∀ x ∈ xs, 0 < x) (m : ℕ) :
    0 < (xs.take m).prod :=
  List.prod_pos fun a ha => h a (List.take_subset _ _ ha)

theorem cumprod_strict_lt (xs : List ℝ) (h : ∀ x ∈ xs, 0 < x ∧ x < 1)
    (t : ℕ) (x y : ℝ) (hx : (cumprod xs)[t]? = some x)
    (hy : (cumprod xs)[t + 1]? = some y) : y < x := by
  have hlen : t + 1 < xs.length := by
    by_contra hc
    push_neg at hc
    have hnone : (cumprod xs)[t + 1]? = none :=
      List.getElem?_eq_none (by rw [cumprod_length]; omega)
    rw [hnone] at hy
    exact Option.noConfusion hy
  have ht : t < xs.length := by omega
  rw [cumprod_getElem? xs t ht] at hx
  rw [cumprod_getElem? xs (t + 1) hlen] at hy
  have hx' : x = (xs.take (t + 1)).prod := (Option.some.injEq _ _).mp hx.symm
  have hy' : y = (xs.take (t + 2)).prod := (Option.some.injEq _ _).mp hy.symm
  subst hx' hy'
  have hsucc : (xs.take (t + 1 + 1)).prod = (xs.take (t + 1)).prod * xs[t + 1] :=
    List.prod_take_succ xs (t + 1) hlen
  rw [show t + 2 = t + 1 + 1 from rfl, hsucc]
  have hppos : 0 < (xs.take (t + 1)).prod :=
    take_prod_pos xs (fun a ha => (h a ha).1) (t + 1)
  have hel : xs[t + 1] < 1 := (h _ (xs.getElem_mem hlen)).2
  exact mul_lt_of_lt_one_right hppos hel

theorem cumprod_head (xs : List ℝ) (h0 : 0 < xs.length) :
    (cumprod xs)[0]? = some xs[0] := by
  rw [cumprod_getElem? xs 0 h0]
  rw [List.prod_take_succ xs 0 h0]
  simp

/-- Induction principle for nested tensors. -/
theorem Tensor.ind {α : Type} {motive : Tensor α → Prop}
    (hs : ∀ x, motive (Tensor.scal x))
    (ha : ∀ ts, (∀ t ∈ ts, motive t) → motive (Tensor.arr ts)) :
    ∀ T, motive T
  | .scal x => hs x
  | .arr ts => ha ts fun t ht => Tensor.ind hs ha t
  decreasing_by
    simp only [Tensor.arr.sizeOf_spec]
    have := List.sizeOf_lt_of_mem ht
    omega

theorem Tensor.map_scal {α β : Type} (f : α → β) (x : α) :
    Tensor.map f (Tensor.scal x) = Tensor.scal (f x) := by
  rw [Tensor.map]

theorem Tensor.map_arr {α β : Type} (f : α → β) (ts : List (Tensor α)) :
    Tensor.map f (Tensor.arr ts) = Tensor.arr (ts.map (Tensor.map f)) := by
  rw [Tensor.map]
  exact congrArg _ (List.attach_map_coe _ _)

theorem Tensor.shape_scal {α : Type} (x : α) :
    Tensor.shape (Tensor.scal x) = Tensor.scal () := by
  rw [Tensor.shape]

theorem Tensor.shape_arr {α : Type} (ts : List (Tensor α)) :
    Tensor.shape (Tensor.arr ts) = Tensor.arr (ts.map Tensor.shape) := by
  rw [Tensor.shape]
  exact congrArg _ (List.attach_map_coe _ _)

theorem Tensor.leaves_scal {α : Type} (x : α) :
    Tensor.leaves (Tensor.scal x) = [x] := by
  rw [Tensor.leaves]

theorem Tensor.leaves_arr {α : Type} (ts : List (Tensor α)) :
    Tensor.leaves (Tensor.arr ts) = (ts.map Tensor.leaves).flatten := by
  rw [Tensor.leaves]
  exact congrArg List.flatten (List.attach_map_coe _ _)

theorem Tensor.shape_map {α β : Type} (f : α → β) (T : Tensor α) :
    (T.map f).shape = T.shape := by
  induction T using Tensor.ind with
  | hs x => rw [Tensor.map_scal, Tensor.shape_scal, Tensor.shape_scal]
  | ha ts ih =>
      rw [Tensor.map_arr, Tensor.shape_arr, Tensor.shape_arr, List.map_map]
      exact congrArg _ (List.map_congr_left fun t ht => ih t ht)

theorem Tensor.leaves_map {α β : Type} (f : α → β) (T : Tensor α) :
    (T.map f).leaves = T.leaves.map f := by
  induction T using Tensor.ind with
  | hs x => rw [Tensor.map_scal, Tensor.leaves_scal, Tensor.leaves_scal, List.map_singleton]
  | ha ts ih =>
      rw [Tensor.map_arr, Tensor.leaves_arr, Tensor.leaves_arr, List.map_map,
        List.map_flatten, List.map_map]
      exact congrArg _ (List.map_congr_left fun t ht => ih t ht)

theorem Tensor.map_map {α β γ : Type} (f : α → β) (g : β → γ) (T : Tensor α) :
    (T.map f).map g = T.map (fun x => g (f x)) := by
  induction T using Tensor.ind with
  | hs x => rw [Tensor.map_scal, Tensor.map_scal, Tensor.map_scal]
  | ha ts ih =>
      rw [Tensor.map_arr, Tensor.map_arr, Tensor.map_arr, List.map_map]
      exact congrArg _ (List.map_congr_left fun t ht => ih t ht)

theorem convert_image_as_map (I : Tensor ℝ) :
    convert_image I = I.map fun x => min (max (x / 2 + 0.5) 0) 1 := by
  rw [convert_image]
  rw [Tensor.map_map, Tensor.map_map]

theorem compute_beta_alpha_eq (n : ℕ) (bs be gs ge : ℝ) (hn : 0 < n)
    (hb : bs ≠ be) (hg : gs ≠ ge) :
    compute_beta_alpha n bs be gs ge =
      some ((List.range n).map (fun t : ℕ => bs + (t : ℝ) * ((be - bs) / n)),
        cumprod (((List.range n).map fun t : ℕ => bs + (t : ℝ) * ((be - bs) / n)).map
          fun b => 1 - b),
        (List.range n).map fun t : ℕ => gs + (t : ℝ) * ((ge - gs) / n)) := by
  rw [compute_beta_alpha, if_neg hn.ne',
    np_arange_pos_step bs be n hn hb, np_arange_pos_step gs ge n hn hg]
  rfl

theorem sine_beta_list_eq (n : ℕ) (bs be : ℝ) :
    ((((List.range n).map fun t : ℕ => (0 : ℝ) + (t : ℝ) * ((1 - 0) / n)).map
        fun x => Real.pi / 2 * x).map
      fun x => Real.sin x * (be - bs) + bs) =
    (List.range n).map fun t : ℕ => Real.sin (Real.pi / 2 * ((t : ℝ) / n)) * (be - bs) + bs := by
  rw [List.map_map, List.map_map]
  refine List.map_congr_left fun k hk => ?_
  have harg : Real.pi / 2 * ((0 : ℝ) + (k : ℝ) * ((1 - 0) / n)) =
      Real.pi / 2 * ((k : ℝ) / n) := by ring
  simp only [Function.comp_apply, harg]

theorem compute_beta_alpha2_eq (n : ℕ) (bs be gs ge : ℝ) (hn : 0 < n)
    (hg : gs ≠ ge) :
    compute_beta_alpha2 n bs be gs ge =
      some ((List.range n).map
          (fun t : ℕ => Real.sin (Real.pi / 2 * ((t : ℝ) / n)) * (be - bs) + bs),
        cumprod (((List.range n).map fun t : ℕ =>
            Real.sin (Real.pi / 2 * ((t : ℝ) / n)) * (be - bs) + bs).map
          fun b => 1 - b),
        (List.range n).map fun t : ℕ => gs + (t : ℝ) * ((ge - gs) / n)) := by
  have h01 : (1 : ℝ) / (n : ℝ) = ((1 : ℝ) - 0) / n := by norm_num
  rw [compute_beta_alpha2, if_neg hn.ne', h01,
    np_arange_pos_step 0 1 n hn (by norm_num), np_arange_pos_step gs ge n hn hg]
  show some _ = some _
  rw [sine_beta_list_eq n bs be]

theorem range_map_getElem? {β : Type} (f : ℕ → β) (n t : ℕ) (h : t < n) :
    ((List.range n).map f)[t]? = some (f t) := by
  simp [List.getElem?_map, List.getElem?_range, h]

theorem range_map_getElem?_inv {β : Type} (f : ℕ → β) (n t : ℕ) (x : β)
    (h : ((List.range n).map f)[t]? = some x) : t < n ∧ x = f t := by
  by_cases ht : t < n
  · rw [range_map_getElem? f n t ht] at h
    exact ⟨ht, ((Option.some.injEq _ _).mp h).symm⟩
  · have hnone : ((List.range n).map f)[t]? = none :=
      List.getElem?_eq_none (by simpa using Nat.le_of_not_lt ht)
    rw [hnone] at h
    exact Option.noConfusion h

theorem range_map_getD {β : Type} (f : ℕ → β) (n t : ℕ) (d : β) (h : t < n) :
    ((List.range n).map f).getD t d = f t := by
  rw [List.getD_eq_getElem?_getD, range_map_getElem? f n t h]
  rfl

theorem linear_elem_lt (n : ℕ) (bs be : ℝ) (hn : 0 < n) (hb : bs < be)
    (k : ℕ) (hk : k < n) : bs + (k : ℝ) * ((be - bs) / n) < be := by
  have hn0 : (0 : ℝ) < n := by exact_mod_cast hn
  have hs : 0 < (be - bs) / n := div_pos (sub_pos.mpr hb) hn0
  have hkn : (k : ℝ) < n := by exact_mod_cast hk
  have h1 : bs + (k : ℝ) * ((be - bs) / n) < bs + (n : ℝ) * ((be - bs) / n) :=
    add_lt_add_left (mul_lt_mul_of_pos_right hkn hs) bs
  have h2 : bs + (n : ℝ) * ((be - bs) / n) = be := by
    field_simp
  rw [h2] at h1
  exact h1

theorem sine_angle_mem (n k : ℕ) (hn : 0 < n) (hk : k < n) :
    0 ≤ Real.pi / 2 * ((k : ℝ) / n) ∧ Real.pi / 2 * ((k : ℝ) / n) < Real.pi / 2 := by
  have hn0 : (0 : ℝ) < n := by exact_mod_cast hn
  have hq0 : 0 ≤ (k : ℝ) / n := div_nonneg (Nat.cast_nonneg k) hn0.le
  have hq1 : (k : ℝ) / n < 1 := (div_lt_one hn0).mpr (by exact_mod_cast hk)
  have hpi : 0 < Real.pi / 2 := by positivity
  refine ⟨mul_nonneg hpi.le hq0, ?_⟩
  have := mul_lt_mul_of_pos_left hq1 hpi
  simpa using this

theorem sine_elem_mem (n : ℕ) (bs be : ℝ) (hn : 0 < n) (hb : bs < be)
    (k : ℕ) (hk : k < n) :
    bs ≤ Real.sin (Real.pi / 2 * ((k : ℝ) / n)) * (be - bs) + bs ∧
    Real.sin (Real.pi / 2 * ((k : ℝ) / n)) * (be - bs) + bs ≤ be := by
  obtain ⟨ha0, ha1⟩ := sine_angle_mem n k hn hk
  have hsin0 : 0 ≤ Real.sin (Real.pi / 2 * ((k : ℝ) / n)) :=
    Real.sin_nonneg_of_nonneg_of_le_pi ha0
      (le_trans ha1.le (by linarith [Real.pi_pos]))
  have hsin1 : Real.sin (Real.pi / 2 * ((k : ℝ) / n)) ≤ 1 := Real.sin_le_one _
  have hd : 0 < be - bs := sub_pos.mpr hb
  constructor
  · nlinarith
  · nlinarith

/-- Properties of `alpha = cumprod (1 - beta)` for a `beta` given as the
image of `f` over `range n`, with every element of `beta` in `(0, 1)`:
partial-product formula, strict decrease, and `alpha[0] < 1`. -/
theorem alpha_props (n : ℕ) (f : ℕ → ℝ) (hn : 0 < n)
    (hf : ∀ k, k < n → 0 < f k ∧ f k < 1) :
    (∀ t, t < n →
        (cumprod (((List.range n).map f).map fun b => 1 - b))[t]? =
          some (∏ k ∈ Finset.range (t + 1), (1 - ((List.range n).map f).getD k 0))) ∧
    (∀ t x y,
        (cumprod (((List.range n).map f).map fun b => 1 - b))[t]? = some x →
        (cumprod (((List.range n).map f).map fun b => 1 - b))[t + 1]? = some y →
        y < x) ∧
    (∃ a, (cumprod (((List.range n).map f).map fun b => 1 - b))[0]? = some a ∧ a < 1) := by
  have hxs : ((List.range n).map f).map (fun b => 1 - b) =
      (List.range n).map fun k => 1 - f k := by
    rw [List.map_map]
    rfl
  have hlen : (((List.range n).map f).map fun b => 1 - b).length = n := by
    rw [List.length_map, List.length_map, List.length_range]
  have hmem : ∀ x ∈ ((List.range n).map f).map fun b => 1 - b, 0 < x ∧ x < 1 := by
    intro x hx
    rw [hxs, List.mem_map] at hx
    obtain ⟨k, hk, rfl⟩ := hx
    rw [List.mem_range] at hk
    obtain ⟨h1, h2⟩ := hf k hk
    constructor <;> linarith
  have hform : ∀ t, t < n →
      (cumprod (((List.range n).map f).map fun b => 1 - b))[t]? =
        some (∏ k ∈ Finset.range (t + 1), (1 - ((List.range n).map f).getD k 0)) := by
    intro t ht
    rw [cumprod_getElem? _ t (by rw [hlen]; exact ht)]
    refine congrArg some ?_
    rw [hxs, ← List.map_take, List.take_range, Nat.min_eq_left (by omega),
      range_map_prod]
    refine Finset.prod_congr rfl fun k hk => ?_
    rw [Finset.mem_range] at hk
    rw [range_map_getD f n k 0 (by omega)]
  refine ⟨hform, ?_, ?_⟩
  · intro t x y hx hy
    exact cumprod_strict_lt _ hmem t x y hx hy
  · refine ⟨1 - f 0, ?_, ?_⟩
    · rw [hform 0 hn]
      refine congrArg some ?_
      rw [Finset.prod_range_one, range_map_getD f n 0 0 hn]
    · have := (hf 0 hn).1
      linarith

/-! Claim theorems. -/

/-- C1: For every positive integer n_steps and real endpoints with
beta_start < beta_end and gamma_start < gamma_end, both schedule policies
(LinearSchedule / compute_beta_alpha and SineSchedule / compute_beta_alpha2)
return three sequences beta, alpha, gamma whose lengths are all exactly
n_steps. -/
theorem schedules_length (n : ℕ) (bs be gs ge : ℝ) (hn : 0 < n)
    (hb : bs < be) (hg : gs < ge) :
    (∃ beta alpha gamma,
        compute_beta_alpha n bs be gs ge = some (beta, alpha, gamma) ∧
        beta.length = n ∧ alpha.length = n ∧ gamma.length = n) ∧
    (∃ beta alpha gamma,
        compute_beta_alpha2 n bs be gs ge = some (beta, alpha, gamma) ∧
        beta.length = n ∧ alpha.length = n ∧ gamma.length = n) := by
  constructor
  · refine ⟨_, _, _, compute_beta_alpha_eq n bs be gs ge hn hb.ne hg.ne, ?_, ?_, ?_⟩
    · rw [List.length_map, List.length_range]
    · rw [cumprod_length, List.length_map, List.length_map, List.length_range]
    · rw [List.length_map, List.length_range]
  · refine ⟨_, _, _, compute_beta_alpha2_eq n bs be gs ge hn hg.ne, ?_, ?_, ?_⟩
    · rw [List.length_map, List.length_range]
    · rw [cumprod_length, List.length_map, List.length_map, List.length_range]
    · rw [List.length_map, List.length_range]

/-- Witness for C1 at n_steps = 3, beta endpoints 0 and 1, gamma endpoints
0 and 1/10. -/
theorem schedules_length_witness :
    0 < 3 ∧ (0 : ℝ) < 1 ∧ (0 : ℝ) < 1 / 10 ∧
      ((∃ beta alpha gamma,
          compute_beta_alpha 3 0 1 0 (1 / 10) = some (beta, alpha, gamma) ∧
          beta.length = 3 ∧ alpha.length = 3 ∧ gamma.length = 3) ∧
        (∃ beta alpha gamma,
          compute_beta_alpha2 3 0 1 0 (1 / 10) = some (beta, alpha, gamma) ∧
          beta.length = 3 ∧ alpha.length = 3 ∧ gamma.length = 3)) :=
  ⟨by norm_num, by norm_num, by norm_num,
    schedules_length 3 0 1 0 (1 / 10) (by norm_num) (by norm_num) (by norm_num)⟩

/-- C5: For every positive n_steps, LinearSchedule returns beta with
beta[t] = beta_start + t * (beta_end - beta_start) / n_steps for
t = 0..n_steps-1; hence beta[0] = beta_start, every element is strictly
less than beta_end, and beta is an arithmetic progression with common
difference (beta_end - beta_start) / n_steps. Gamma endpoints are the
source defaults 0 and 0.1. -/
theorem linear_beta (n : ℕ) (bs be : ℝ) (hn : 0 < n) (hb : bs < be) :
    ∃ beta alpha gamma,
      compute_beta_alpha n bs be 0 (1 / 10) = some (beta, alpha, gamma) ∧
      (∀ t, t < n → beta[t]? = some (bs + (t : ℝ) * ((be - bs) / n))) ∧
      beta[0]? = some bs ∧
      (∀ (t : ℕ) (x : ℝ), beta[t]? = some x → x < be) ∧
      (∀ (t : ℕ) (x y : ℝ), beta[t]? = some x → beta[t + 1]? = some y →
        y - x = (be - bs) / n) := by
  refine ⟨_, _, _, compute_beta_alpha_eq n bs be 0 (1 / 10) hn hb.ne (by norm_num),
    ?_, ?_, ?_, ?_⟩
  · intro t ht
    exact range_map_getElem? _ n t ht
  · rw [range_map_getElem? _ n 0 hn]
    refine congrArg some ?_
    norm_num
  · intro t x hx
    obtain ⟨ht, rfl⟩ := range_map_getElem?_inv _ n t x hx
    exact linear_elem_lt n bs be hn hb t ht
  · intro t x y hx hy
    obtain ⟨ht, rfl⟩ := range_map_getElem?_inv _ n t x hx
    obtain ⟨ht1, rfl⟩ := range_map_getElem?_inv _ n (t + 1) y hy
    push_cast
    ring

/-- Witness for C5 at n_steps = 4, beta endpoints 1/10 and 1/2. -/
theorem linear_beta_witness :
    0 < 4 ∧ (1 / 10 : ℝ) < 1 / 2 ∧
      (∃ beta alpha gamma,
        compute_beta_alpha 4 (1 / 10) (1 / 2) 0 (1 / 10) = some (beta, alpha, gamma) ∧
        (∀ t : ℕ, t < 4 →
          beta[t]? = some (1 / 10 + (t : ℝ) * ((1 / 2 - 1 / 10) / ((4 : ℕ) : ℝ)))) ∧
        beta[0]? = some (1 / 10) ∧
        (∀ (t : ℕ) (x : ℝ), beta[t]? = some x → x < 1 / 2) ∧
        (∀ (t : ℕ) (x y : ℝ), beta[t]? = some x → beta[t + 1]? = some y →
          y - x = (1 / 2 - 1 / 10) / ((4 : ℕ) : ℝ))) :=
  ⟨by norm_num, by norm_num,
    linear_beta 4 (1 / 10) (1 / 2) (by norm_num) (by norm_num)⟩

/-- C6: For every positive n_steps, SineSchedule returns beta with
beta[t] = sin((pi/2) * (t / n_steps)) * (beta_end - beta_start) + beta_start
for t = 0..n_steps-1; hence beta[0] = beta_start,
beta[n_steps-1] < beta_end, and (with beta_end > beta_start) beta is
non-decreasing. Gamma endpoints are the source defaults 0 and 0.1. -/
theorem sine_beta (n : ℕ) (bs be : ℝ) (hn : 0 < n) (hb : bs < be) :
    ∃ beta alpha gamma,
      compute_beta_alpha2 n bs be 0 (1 / 10) = some (beta, alpha, gamma) ∧
      (∀ t, t < n →
        beta[t]? = some (Real.sin (Real.pi / 2 * ((t : ℝ) / n)) * (be - bs) + bs)) ∧
      beta[0]? = some bs ∧
      (∃ x, beta[n - 1]? = some x ∧ x < be) ∧
      (∀ (t : ℕ) (x y : ℝ), beta[t]? = some x → beta[t + 1]? = some y → x ≤ y) := by
  refine ⟨_, _, _, compute_beta_alpha2_eq n bs be 0 (1 / 10) hn (by norm_num),
    ?_, ?_, ?_, ?_⟩
  · intro t ht
    exact range_map_getElem? _ n t ht
  · rw [range_map_getElem? _ n 0 hn]
    refine congrArg some ?_
    norm_num
  · refine ⟨_, range_map_getElem? _ n (n - 1) (by omega), ?_⟩
    obtain ⟨ha0, ha1⟩ := sine_angle_mem n (n - 1) hn (by omega)
    have hsin : Real.sin (Real.pi / 2 * (((n - 1 : ℕ) : ℝ) / n)) < 1 := by
      have hlt : Real.sin (Real.pi / 2 * (((n - 1 : ℕ) : ℝ) / n)) <
          Real.sin (Real.pi / 2) :=
        Real.sin_lt_sin_of_lt_of_le_pi_div_two (by linarith) le_rfl ha1
      rwa [Real.sin_pi_div_two] at hlt
    nlinarith [sub_pos.mpr hb]
  · intro t x y hx hy
    obtain ⟨ht, rfl⟩ := range_map_getElem?_inv _ n t x hx
    obtain ⟨ht1, rfl⟩ := range_map_getElem?_inv _ n (t + 1) y hy
    obtain ⟨ha0, _⟩ := sine_angle_mem n t hn ht
    obtain ⟨_, hb1⟩ := sine_angle_mem n (t + 1) hn ht1
    have hn0 : (0 : ℝ) < n := by exact_mod_cast hn
    have hpi : 0 < Real.pi / 2 := by positivity
    have hqlt : (t : ℝ) / n < ((t + 1 : ℕ) : ℝ) / n := by
      push_cast
      gcongr
      linarith
    have hangle : Real.pi / 2 * ((t : ℝ) / n) <
        Real.pi / 2 * (((t + 1 : ℕ) : ℝ) / n) :=
      mul_lt_mul_of_pos_left hqlt hpi
    have hsin : Real.sin (Real.pi / 2 * ((t : ℝ) / n)) ≤
        Real.sin (Real.pi / 2 * (((t + 1 : ℕ) : ℝ) / n)) :=
      (Real.sin_lt_sin_of_lt_of_le_pi_div_two (by linarith) hb1.le hangle).le
    nlinarith [sub_pos.mpr hb]

/-- Witness for C6 at n_steps = 4, beta endpoints 1/10 and 1/2. -/
theorem sine_beta_witness :
    0 < 4 ∧ (1 / 10 : ℝ) < 1 / 2 ∧
      (∃ beta alpha gamma,
        compute_beta_alpha2 4 (1 / 10) (1 / 2) 0 (1 / 10) = some (beta, alpha, gamma) ∧
        (∀ t : ℕ, t < 4 →
          beta[t]? = some (Real.sin (Real.pi / 2 * ((t : ℝ) / ((4 : ℕ) : ℝ))) *
            (1 / 2 - 1 / 10) + 1 / 10)) ∧
        beta[0]? = some (1 / 10) ∧
        (∃ x, beta[4 - 1]? = some x ∧ x < 1 / 2) ∧
        (∀ (t : ℕ) (x y : ℝ), beta[t]? = some x → beta[t + 1]? = some y → x ≤ y)) :=
  ⟨by norm_num, by norm_num,
    sine_beta 4 (1 / 10) (1 / 2) (by norm_num) (by norm_num)⟩

/-- C2: For both schedule policies, for every positive n_steps and endpoints
with 0 < beta_start < beta_end < 1, the returned alpha satisfies
alpha[t] = product over k = 0..t of (1 - beta[k]) for every t in
[0, n_steps), alpha is strictly decreasing, and alpha[0] < 1. Gamma
endpoints are the source defaults 0 and 0.1. -/
theorem schedules_alpha (n : ℕ) (bs be : ℝ) (hn : 0 < n)
    (h0 : 0 < bs) (hb : bs < be) (h1 : be < 1) :
    (∃ beta alpha gamma,
        compute_beta_alpha n bs be 0 (1 / 10) = some (beta, alpha, gamma) ∧
        (∀ t, t < n →
          alpha[t]? = some (∏ k ∈ Finset.range (t + 1), (1 - beta.getD k 0))) ∧
        (∀ (t : ℕ) (x y : ℝ), alpha[t]? = some x → alpha[t + 1]? = some y →
          y < x) ∧
        (∃ a, alpha[0]? = some a ∧ a < 1)) ∧
    (∃ beta alpha gamma,
        compute_beta_alpha2 n bs be 0 (1 / 10) = some (beta, alpha, gamma) ∧
        (∀ t, t < n →
          alpha[t]? = some (∏ k ∈ Finset.range (t + 1), (1 - beta.getD k 0))) ∧
        (∀ (t : ℕ) (x y : ℝ), alpha[t]? = some x → alpha[t + 1]? = some y →
          y < x) ∧
        (∃ a, alpha[0]? = some a ∧ a < 1)) := by
  constructor
  · have hf : ∀ k, k < n → 0 < bs + (k : ℝ) * ((be - bs) / n) ∧
        bs + (k : ℝ) * ((be - bs) / n) < 1 := by
      intro k hk
      have hn0 : (0 : ℝ) < n := by exact_mod_cast hn
      have hs : 0 ≤ (k : ℝ) * ((be - bs) / n) :=
        mul_nonneg (Nat.cast_nonneg k) (div_nonneg (by linarith) hn0.le)
      exact ⟨by linarith, lt_trans (linear_elem_lt n bs be hn hb k hk) h1⟩
    obtain ⟨hform, hdec, hhead⟩ :=
      alpha_props n (fun t : ℕ => bs + (t : ℝ) * ((be - bs) / n)) hn hf
    exact ⟨_, _, _, compute_beta_alpha_eq n bs be 0 (1 / 10) hn hb.ne (by norm_num),
      hform, hdec, hhead⟩
  · have hf : ∀ k, k < n →
        0 < Real.sin (Real.pi / 2 * ((k : ℝ) / n)) * (be - bs) + bs ∧
        Real.sin (Real.pi / 2 * ((k : ℝ) / n)) * (be - bs) + bs < 1 := by
      intro k hk
      obtain ⟨hlo, hhi⟩ := sine_elem_mem n bs be hn hb k hk
      exact ⟨lt_of_lt_of_le h0 hlo, lt_of_le_of_lt hhi h1⟩
    obtain ⟨hform, hdec, hhead⟩ :=
      alpha_props n
        (fun t : ℕ => Real.sin (Real.pi / 2 * ((t : ℝ) / n)) * (be - bs) + bs) hn hf
    exact ⟨_, _, _, compute_beta_alpha2_eq n bs be 0 (1 / 10) hn (by norm_num),
      hform, hdec, hhead⟩

/-- Witness for C2 at n_steps = 3, beta endpoints 1/10 and 1/2. -/
theorem schedules_alpha_witness :
    0 < 3 ∧ (0 : ℝ) < 1 / 10 ∧ (1 / 10 : ℝ) < 1 / 2 ∧ (1 / 2 : ℝ) < 1 ∧
      ((∃ beta alpha gamma,
          compute_beta_alpha 3 (1 / 10) (1 / 2) 0 (1 / 10) = some (beta, alpha, gamma) ∧
          (∀ t, t < 3 →
            alpha[t]? = some (∏ k ∈ Finset.range (t + 1), (1 - beta.getD k 0))) ∧
          (∀ (t : ℕ) (x y : ℝ), alpha[t]? = some x → alpha[t + 1]? = some y →
            y < x) ∧
          (∃ a, alpha[0]? = some a ∧ a < 1)) ∧
        (∃ beta alpha gamma,
          compute_beta_alpha2 3 (1 / 10) (1 / 2) 0 (1 / 10) = some (beta, alpha, gamma) ∧
          (∀ t, t < 3 →
            alpha[t]? = some (∏ k ∈ Finset.range (t + 1), (1 - beta.getD k 0))) ∧
          (∀ (t : ℕ) (x y : ℝ), alpha[t]? = some x → alpha[t + 1]? = some y →
            y < x) ∧
          (∃ a, alpha[0]? = some a ∧ a < 1))) :=
  ⟨by norm_num, by norm_num, by norm_num, by norm_num,
    schedules_alpha 3 (1 / 10) (1 / 2) (by norm_num) (by norm_num) (by norm_num)
      (by norm_num)⟩

/-- Counterexample for C7: at n_steps = 0 (with beta_start = 0 < 1 = beta_end
and the default gamma endpoints) both schedule generators fail with a
division-by-zero error (`none`); they do not return a triple of empty
sequences. -/
theorem schedules_zero_cex :
    compute_beta_alpha 0 0 1 0 (1 / 10) = none ∧
    compute_beta_alpha2 0 0 1 0 (1 / 10) = none := by
  constructor
  · rw [compute_beta_alpha, if_pos rfl]
  · rw [compute_beta_alpha2, if_pos rfl]

/-- C7 amended: called with n_steps = 0, each schedule generator raises a
division-by-zero error (the Python step computation divides by n_steps),
modelled as `none`, for all endpoint values; it never returns three empty
sequences. -/
theorem schedules_zero (bs be gs ge : ℝ) :
    compute_beta_alpha 0 bs be gs ge = none ∧
    compute_beta_alpha2 0 bs be gs ge = none := by
  constructor
  · rw [compute_beta_alpha, if_pos rfl]
  · rw [compute_beta_alpha2, if_pos rfl]

/-- C9: to_unit_range (convert_image) preserves the shape of its input,
maps every element x to clamp(x/2 + 0.5, 0, 1) (written as
min (max (x/2 + 0.5) 0) 1, matching the source order max-then-min), and in
particular maps [-1, 0, 1] to [0, 0.5, 1] and [-3, 3] to [0, 1]. -/
theorem convert_image_spec :
    (∀ T : Tensor ℝ, (convert_image T).shape = T.shape) ∧
    (∀ T : Tensor ℝ,
      (convert_image T).leaves = T.leaves.map fun x => min (max (x / 2 + 0.5) 0) 1) ∧
    convert_image (Tensor.arr [Tensor.scal (-1), Tensor.scal 0, Tensor.scal 1]) =
      Tensor.arr [Tensor.scal 0, Tensor.scal 0.5, Tensor.scal 1] ∧
    convert_image (Tensor.arr [Tensor.scal (-3), Tensor.scal 3]) =
      Tensor.arr [Tensor.scal 0, Tensor.scal 1] := by
  refine ⟨?_, ?_, ?_, ?_⟩
  · intro T
    rw [convert_image_as_map, Tensor.shape_map]
  · intro T
    rw [convert_image_as_map, Tensor.leaves_map]
  · rw [convert_image_as_map, Tensor.map_arr]
    simp only [List.map_cons, List.map_nil, Tensor.map_scal]
    norm_num
  · rw [convert_image_as_map, Tensor.map_arr]
    simp only [List.map_cons, List.map_nil, Tensor.map_scal]
    norm_num

theorem posenc_max_dims (ms md : ℕ) :
    (PositionEncoder.init ms md).max_dims = if md % 2 = 1 then md + 1 else md := rfl

theorem posenc_table (ms md : ℕ) :
    (PositionEncoder.init ms md).positional_embedding =
      (List.range ms).map fun p : ℕ =>
        (List.range (if md % 2 = 1 then md + 1 else md)).map fun c =>
          if c % 2 = 0 then
            Real.sin ((p : ℝ) / (10000 : ℝ) ^
              ((2 * (c / 2) : ℕ) / ((if md % 2 = 1 then md + 1 else md : ℕ) : ℝ)))
          else
            Real.cos ((p : ℝ) / (10000 : ℝ) ^
              ((2 * (c / 2) : ℕ) / ((if md % 2 = 1 then md + 1 else md : ℕ) : ℝ))) := rfl

theorem posenc_row (D t i : ℕ) (hi : 2 * i + 1 < D) :
    (((List.range D).map fun c =>
        if c % 2 = 0 then
          Real.sin ((t : ℝ) / (10000 : ℝ) ^ ((2 * (c / 2) : ℕ) / (D : ℝ)))
        else
          Real.cos ((t : ℝ) / (10000 : ℝ) ^ ((2 * (c / 2) : ℕ) / (D : ℝ))))[2 * i]? =
      some (Real.sin ((t : ℝ) / (10000 : ℝ) ^ (((2 * i : ℕ) : ℝ) / (D : ℝ))))) ∧
    (((List.range D).map fun c =>
        if c % 2 = 0 then
          Real.sin ((t : ℝ) / (10000 : ℝ) ^ ((2 * (c / 2) : ℕ) / (D : ℝ)))
        else
          Real.cos ((t : ℝ) / (10000 : ℝ) ^ ((2 * (c / 2) : ℕ) / (D : ℝ))))[2 * i + 1]? =
      some (Real.cos ((t : ℝ) / (10000 : ℝ) ^ (((2 * i : ℕ) : ℝ) / (D : ℝ))))) := by
  constructor
  · rw [range_map_getElem? _ D (2 * i) (by omega)]
    have h2 : (2 * i) % 2 = 0 := by omega
    have h3 : 2 * (2 * i / 2) = 2 * i := by omega
    rw [if_pos h2, h3]
  · rw [range_map_getElem? _ D (2 * i + 1) hi]
    have h2 : ¬(2 * i + 1) % 2 = 0 := by omega
    have h3 : 2 * ((2 * i + 1) / 2) = 2 * i := by omega
    rw [if_neg h2, h3]

/-- C3: Constructing StepEncoder (PositionEncoder) with positive max_steps
and max_dims builds a table of shape (max_steps, D), where D = max_dims if
even and max_dims + 1 if odd; the recorded dimensionality equals D; and for
every row t and pair index i with 2i+1 < D, column 2i holds
sin(t / 10000^(2i/D)) and column 2i+1 holds cos(t / 10000^(2i/D)). -/
theorem step_encoder_table (ms md : ℕ) (hs : 0 < ms) (hd : 0 < md) :
    ((PositionEncoder.init ms md).max_dims =
      if md % 2 = 1 then md + 1 else md) ∧
    (PositionEncoder.init ms md).positional_embedding.length = ms ∧
    (∀ t, t < ms → ∃ row,
      (PositionEncoder.init ms md).positional_embedding[t]? = some row ∧
      row.length = (PositionEncoder.init ms md).max_dims ∧
      ∀ i, 2 * i + 1 < (PositionEncoder.init ms md).max_dims →
        row[2 * i]? = some (Real.sin ((t : ℝ) / (10000 : ℝ) ^
          (((2 * i : ℕ) : ℝ) / ((PositionEncoder.init ms md).max_dims : ℝ)))) ∧
        row[2 * i + 1]? = some (Real.cos ((t : ℝ) / (10000 : ℝ) ^
          (((2 * i : ℕ) : ℝ) / ((PositionEncoder.init ms md).max_dims : ℝ))))) := by
  refine ⟨posenc_max_dims ms md, ?_, ?_⟩
  · rw [posenc_table, List.length_map, List.length_range]
  · intro t ht
    rw [posenc_table, posenc_max_dims]
    refine ⟨_, range_map_getElem? _ ms t ht, ?_, ?_⟩
    · rw [List.length_map, List.length_range]
    · intro i hi
      exact posenc_row _ t i hi

/-- Witness for C3 at max_steps = 10, max_dims = 5 (an odd request, stored
as 6 columns). -/
theorem step_encoder_table_witness :
    0 < 10 ∧ 0 < 5 ∧
      (((PositionEncoder.init 10 5).max_dims = if 5 % 2 = 1 then 5 + 1 else 5) ∧
       (PositionEncoder.init 10 5).positional_embedding.length = 10 ∧
       (∀ t : ℕ, t < 10 → ∃ row,
         (PositionEncoder.init 10 5).positional_embedding[t]? = some row ∧
         row.length = (PositionEncoder.init 10 5).max_dims ∧
         ∀ i : ℕ, 2 * i + 1 < (PositionEncoder.init 10 5).max_dims →
           row[2 * i]? = some (Real.sin ((t : ℝ) / (10000 : ℝ) ^
             (((2 * i : ℕ) : ℝ) / ((PositionEncoder.init 10 5).max_dims : ℝ)))) ∧
           row[2 * i + 1]? = some (Real.cos ((t : ℝ) / (10000 : ℝ) ^
             (((2 * i : ℕ) : ℝ) / ((PositionEncoder.init 10 5).max_dims : ℝ)))))) :=
  ⟨by norm_num, by norm_num, step_encoder_table 10 5 (by norm_num) (by norm_num)⟩

theorem gather_nd_single (params : List (List ℝ)) (i : ℕ) :
    gather_nd params [i] =
      (params[i]?).map fun row => Tensor.arr (row.map Tensor.scal) := rfl

theorem gather_nd_pair (params : List (List ℝ)) (i j : ℕ) :
    gather_nd params [i, j] =
      (params[i]?).bind fun row => (row[j]?).map Tensor.scal := rfl

theorem posenc_length (ms md : ℕ) :
    (PositionEncoder.init ms md).positional_embedding.length = ms := by
  rw [posenc_table, List.length_map, List.length_range]

theorem posenc_row0_md4 (ms : ℕ) (hms : 0 < ms) :
    (PositionEncoder.init ms 4).positional_embedding[0]? =
      some [0, 1, 0, 1] := by
  rw [posenc_table, range_map_getElem? _ ms 0 hms]
  refine congrArg some ?_
  have h4 : (if 4 % 2 = 1 then 4 + 1 else 4) = 4 := by norm_num
  rw [h4]
  have hr : List.range 4 = [0, 1, 2, 3] := rfl
  rw [hr]
  simp only [List.map_cons, List.map_nil]
  norm_num [Real.sin_zero, Real.cos_zero]

theorem gather_nd2_rows (params : List (List ℝ)) (idxs : List ℕ)
    (h : ∀ i ∈ idxs, i < params.length) :
    gather_nd2 params (idxs.map fun i => [i]) =
      some (Tensor.arr (idxs.map fun i =>
        Tensor.arr ((params.getD i []).map Tensor.scal))) := by
  rw [gather_nd2]
  suffices hs : (idxs.map fun i => [i]).mapM (fun iv => gather_nd params iv) =
      some (idxs.map fun i => Tensor.arr ((params.getD i []).map Tensor.scal)) by
    rw [hs]
    rfl
  induction idxs with
  | nil => rfl
  | cons a as ih =>
      have ha : a < params.length := h a (List.mem_cons_self a as)
      have has : ∀ i ∈ as, i < params.length :=
        fun i hi => h i (List.mem_cons_of_mem a hi)
      rw [List.map_cons, List.mapM_cons, gather_nd_single,
        List.getElem?_eq_getElem ha, ih has]
      simp only [List.map_cons]
      rw [List.getD_eq_getElem params [] ha]
      rfl

/-- Counterexample for C4: with max_steps = 10 and max_dims = 4, the lookup
embed([0]) — gather_nd at the rank-1 index tensor [0] — returns the rank-1
row vector [0, 1, 0, 1], not the rank-2 value [[0, 1, 0, 1]] stated by the
claim: gather_nd reads a flat index list as one multi-dimensional index,
not as a batch of row selectors. -/
theorem step_encoder_lookup_rank_cex :
    (PositionEncoder.init 10 4).call [0] =
      some (Tensor.arr [Tensor.scal 0, Tensor.scal 1, Tensor.scal 0, Tensor.scal 1]) ∧
    (PositionEncoder.init 10 4).call [0] ≠
      some (Tensor.arr [Tensor.arr [Tensor.scal 0, Tensor.scal 1,
        Tensor.scal 0, Tensor.scal 1]]) := by
  have hcall : (PositionEncoder.init 10 4).call [0] =
      some (Tensor.arr [Tensor.scal 0, Tensor.scal 1, Tensor.scal 0, Tensor.scal 1]) := by
    rw [PositionEncoder.call, gather_nd_single, posenc_row0_md4 10 (by norm_num)]
    rfl
  refine ⟨hcall, ?_⟩
  rw [hcall]
  intro heq
  simp at heq

/-- C4 amended: embed implements gather_nd semantics, so a batch of row
lookups needs one singleton index vector per requested row: for every
encoder and every index list whose entries are all below max_steps, calling
the encoder on the rank-2 index tensor [[i0], [i1], ...] returns the rows
i0, i1, ... of the table in order (each row as a rank-1 tensor); a flat
index list is instead one multi-dimensional index, so embed([0]) is row 0
itself, a rank-1 vector (see the counterexample). -/
theorem step_encoder_lookup_rows (ms md : ℕ) (idxs : List ℕ)
    (h : ∀ i ∈ idxs, i < ms) :
    (PositionEncoder.init ms md).call₂ (idxs.map fun i => [i]) =
      some (Tensor.arr (idxs.map fun i =>
        Tensor.arr (((PositionEncoder.init ms md).positional_embedding.getD i []).map
          Tensor.scal))) := by
  rw [PositionEncoder.call₂]
  refine gather_nd2_rows _ idxs fun i hi => ?_
  rw [posenc_length]
  exact h i hi

/-- Witness for C4 amended at max_steps = 10, max_dims = 4, rows [0, 1]. -/
theorem step_encoder_lookup_rows_witness :
    (∀ i ∈ [0, 1], i < 10) ∧
      (PositionEncoder.init 10 4).call₂ ([0, 1].map fun i => [i]) =
        some (Tensor.arr ([0, 1].map fun i =>
          Tensor.arr (((PositionEncoder.init 10 4).positional_embedding.getD i []).map
            Tensor.scal))) :=
  ⟨by decide, step_encoder_lookup_rows 10 4 [0, 1] (by decide)⟩

/-- Counterexample for C8: for the encoder with max_steps = 2 and
max_dims = 4, the index sequence [0, 3] contains 3, which lies outside
[0, max_steps) = [0, 2); yet embed([0, 3]) silently returns a value — the
scalar table[0][3] = cos 0 = 1 — because gather_nd reads the second
coordinate of a flat index list as a column index, not a row index. -/
theorem step_encoder_oob_cex :
    2 ≤ 3 ∧ (PositionEncoder.init 2 4).call [0, 3] = some (Tensor.scal 1) := by
  refine ⟨by norm_num, ?_⟩
  rw [PositionEncoder.call, gather_nd_pair, posenc_row0_md4 2 (by norm_num)]
  rfl

/-- C8 amended: a single-index lookup with row index i ≥ max_steps — in
particular embed([max_steps]) — signals an out-of-range error (none), both
for the rank-1 index tensor [i] and for the rank-2 index tensor [[i]]; but
in a flat multi-element index sequence only the first coordinate selects a
row, so an out-of-range value in a later position need not signal an error
(see the counterexample). -/
theorem step_encoder_oob (ms md i : ℕ) (h : ms ≤ i) :
    (PositionEncoder.init ms md).call [i] = none ∧
    (PositionEncoder.init ms md).call₂ [[i]] = none := by
  have hnone : (PositionEncoder.init ms md).positional_embedding[i]? = none :=
    List.getElem?_eq_none (by rw [posenc_length]; exact h)
  constructor
  · rw [PositionEncoder.call, gather_nd_single, hnone]
    rfl
  · rw [PositionEncoder.call₂, gather_nd2]
    have hm : ([[i]] : List (List ℕ)).mapM
        (fun iv => gather_nd (PositionEncoder.init ms md).positional_embedding iv) =
        none := by
      rw [List.mapM_cons, gather_nd_single, hnone]
      rfl
    rw [hm]
    rfl

/-- Witness for C8 amended at max_steps = 10, max_dims = 4, index 10. -/
theorem step_encoder_oob_witness :
    10 ≤ 10 ∧
      ((PositionEncoder.init 10 4).call [10] = none ∧
        (PositionEncoder.init 10 4).call₂ [[10]] = none) :=
  ⟨by norm_num, step_encoder_oob 10 4 10 (by norm_num)⟩

end DiffusionTools
